import Mathlib

/-!
Verification of the redistricting sampling engine invoked by
`gerrychain_sample.py`.  The script delegates all algorithmic work (graph
storage, partitions, updaters, proposals, constraints, chain iteration) to
the imported library, whose code is not part of the repository; the engine
is therefore modelled here from the specification (`spec.md` §3–§7), and
each such definition is marked `Modelled from the spec:`.
-/

namespace GerryIntro

abbrev Node := ℕ
abbrev District := ℕ
abbrev Edge := Node × Node

/-- Modelled from the spec: the Graph Store (§3, §4.1), missing from src
(the script imports `gerrychain.Graph`): an immutable adjacency graph with a
node list, an undirected edge list, and numeric per-node attributes
(population column `TOT_POP`, vote-total columns) accessed by column name. -/
structure Graph where
  nodes : List Node
  edges : List Edge
  attr : String → Node → ℕ

/-- Modelled from the spec: an Assignment (§3) maps every node to a
district ID. -/
abbrev Assignment := Node → District

/-- Modelled from the spec: the cut-edge set (§3), missing from src (the
script imports `gerrychain.updaters.cut_edges`): the edges whose two
endpoints lie in different districts under the assignment. -/
def cutEdges (g : Graph) (a : Assignment) : List Edge :=
  g.edges.filter (fun e => decide (a e.1 ≠ a e.2))

/-- Modelled from the spec: the Tally updater (§4.2), missing from src (the
script imports `gerrychain.updaters.Tally`): per-district sum of a numeric
node attribute. -/
def tally (g : Graph) (col : String) (a : Assignment) (d : District) : ℤ :=
  ((g.nodes.filter (fun v => decide (a v = d))).map (fun v => (g.attr col v : ℤ))).sum

/-- The list of distinct district IDs appearing in the assignment. -/
def districtsOf (g : Graph) (a : Assignment) : List District :=
  (g.nodes.map a).dedup

/-- Per-district populations (the `TOT_POP` tally), as rationals. -/
def districtPops (g : Graph) (a : Assignment) : List ℚ :=
  (districtsOf g a).map (fun d => ((tally g "TOT_POP" a d : ℤ) : ℚ))

/-- Modelled from the spec: `WithinPercentOfIdeal(idealPopulation, epsilon)`
(§4.4), missing from src (the script calls
`constraints.within_percent_of_ideal_population`): passes iff every
district's population lies within `eps` fraction of the ideal. -/
def withinPercentOfIdeal (ideal eps : ℚ) (pops : List ℚ) : Bool :=
  pops.all (fun p => decide (ideal * (1 - eps) ≤ p ∧ p ≤ ideal * (1 + eps)))

theorem tally_nonneg (g : Graph) (col : String) (a : Assignment) (d : District) :
    0 ≤ tally g col a d := by
  unfold tally
  apply List.sum_nonneg
  intro x hx
  rcases List.mem_map.mp hx with ⟨v, _, rfl⟩
  exact Int.natCast_nonneg _

/-- Claim C7: the constraint `WithinPercentOfIdeal(ideal, 0.0)` passes a
candidate partition exactly when every district's population equals `ideal`,
and rejects it exactly when some district's population differs from `ideal`
(boundary case epsilon = 0). -/
theorem withinPercentOfIdeal_epsilon_zero (g : Graph) (a : Assignment) (ideal : ℚ) :
    (withinPercentOfIdeal ideal 0 (districtPops g a) = true ↔
      ∀ q ∈ districtPops g a, q = ideal) ∧
    (withinPercentOfIdeal ideal 0 (districtPops g a) = false ↔
      ∃ q ∈ districtPops g a, q ≠ ideal) := by
  have hiff : withinPercentOfIdeal ideal 0 (districtPops g a) = true ↔
      ∀ q ∈ districtPops g a, q = ideal := by
    unfold withinPercentOfIdeal
    rw [List.all_eq_true]
    constructor
    · intro h q hq
      have := h q hq
      rw [decide_eq_true_eq] at this
      have h1 : ideal * (1 - 0) = ideal := by ring
      have h2 : ideal * (1 + 0) = ideal := by ring
      rw [h1] at this
      rw [h2] at this
      exact le_antisymm this.2 this.1
    · intro h q hq
      rw [decide_eq_true_eq]
      have := h q hq
      subst this
      constructor
      · nlinarith
      · nlinarith
  refine ⟨hiff, ?_⟩
  constructor
  · intro h
    by_contra hne
    push_neg at hne
    have : withinPercentOfIdeal ideal 0 (districtPops g a) = true := hiff.mpr hne
    rw [h] at this
    exact Bool.false_ne_true this
  · intro h
    rcases h with ⟨q, hq, hne⟩
    cases hb : withinPercentOfIdeal ideal 0 (districtPops g a) with
    | false => rfl
    | true => exact absurd (hiff.mp hb q hq) hne

/-- First value bound to a key in an association list (the model of the
dictionaries the script passes, e.g. party name → vote-total column). -/
def assocLookup {α β : Type} [DecidableEq α] (k : α) : List (α × β) → Option β
  | [] => none
  | p :: rest => if p.1 = k then some p.2 else assocLookup k rest

theorem assocLookup_mem {α β : Type} [DecidableEq α] {k : α} {b : β} :
    ∀ {l : List (α × β)}, assocLookup k l = some b → (k, b) ∈ l := by
  intro l
  induction l with
  | nil => intro h; simp [assocLookup] at h
  | cons p rest ih =>
    intro h
    rw [assocLookup] at h
    by_cases hp : p.1 = k
    · rw [if_pos hp] at h
      have hb : b = p.2 := (Option.some.inj h).symm
      subst hb
      subst hp
      simp
    · rw [if_neg hp] at h
      exact List.mem_cons_of_mem _ (ih h)

/-- Modelled from the spec: total votes cast in district `d` across the
parties of an election (§4.2), missing from src (the script imports
`gerrychain.Election`). -/
def electionTotal (g : Graph) (a : Assignment) (parties : List (String × String))
    (d : District) : ℤ :=
  (parties.map (fun pc => tally g pc.2 a d)).sum

/-- Modelled from the spec: the vote share of `party` in district `d`, i.e.
the party's tallied votes divided by the district's total votes (0 when the
district cast no votes). -/
def electionShare (g : Graph) (a : Assignment) (parties : List (String × String))
    (party : String) (d : District) : ℚ :=
  if electionTotal g a parties d = 0 then 0
  else ((tally g ((assocLookup party parties).getD "") a d : ℤ) : ℚ) /
    ((electionTotal g a parties d : ℤ) : ℚ)

/-- Modelled from the spec: the election result's `percents(party)` (§4.2,
§6), missing from src: the per-district vote shares of `party`, as an
ascending sorted sequence (position-by-rank, not position-by-district-ID). -/
def percents (g : Graph) (a : Assignment) (parties : List (String × String))
    (party : String) : List ℚ :=
  ((districtsOf g a).map (electionShare g a parties party)).insertionSort (· ≤ ·)

theorem electionTotal_nonneg (g : Graph) (a : Assignment)
    (parties : List (String × String)) (d : District) :
    0 ≤ electionTotal g a parties d := by
  apply List.sum_nonneg
  intro x hx
  rcases List.mem_map.mp hx with ⟨pc, _, rfl⟩
  exact tally_nonneg g pc.2 a d

theorem electionShare_bounds (g : Graph) (a : Assignment)
    (parties : List (String × String)) (party col : String) (d : District)
    (hcol : assocLookup party parties = some col) :
    0 ≤ electionShare g a parties party d ∧ electionShare g a parties party d ≤ 1 := by
  unfold electionShare
  by_cases h0 : electionTotal g a parties d = 0
  · rw [if_pos h0]
    norm_num
  · rw [if_neg h0]
    have htotpos : 0 < electionTotal g a parties d :=
      lt_of_le_of_ne (electionTotal_nonneg g a parties d) (Ne.symm h0)
    have hnum : (0 : ℤ) ≤ tally g ((assocLookup party parties).getD "") a d :=
      tally_nonneg _ _ _ _
    have hmemmap : tally g col a d ∈ parties.map (fun pc => tally g pc.2 a d) :=
      List.mem_map.mpr ⟨(party, col), assocLookup_mem hcol, rfl⟩
    have hle : tally g ((assocLookup party parties).getD "") a d ≤
        electionTotal g a parties d := by
      rw [hcol]
      exact List.single_le_sum (fun x hx => by
        rcases List.mem_map.mp hx with ⟨pc, _, rfl⟩
        exact tally_nonneg g pc.2 a d) _ hmemmap
    constructor
    · apply div_nonneg
      · exact_mod_cast hnum
      · exact_mod_cast le_of_lt htotpos
    · rw [div_le_one (by exact_mod_cast htotpos)]
      exact_mod_cast hle

/-- Claim C2: for every partition with an election updater and every party
named in that election, `percents(party)` returns the per-district vote
shares as an ascending sorted sequence, with every value in `[0, 1]`. -/
theorem percents_sorted_and_bounded (g : Graph) (a : Assignment)
    (parties : List (String × String)) (party col : String)
    (hnamed : assocLookup party parties = some col) :
    (percents g a parties party).Sorted (· ≤ ·) ∧
    ∀ x ∈ percents g a parties party, 0 ≤ x ∧ x ≤ 1 := by
  constructor
  · exact List.sorted_insertionSort _ _
  · intro x hx
    rw [percents, List.mem_insertionSort] at hx
    rcases List.mem_map.mp hx with ⟨d, _, rfl⟩
    exact electionShare_bounds g a parties party col d hnamed

/-- Concrete election data for exercising `percents`: two nodes, two
districts, a Democratic and a Republican vote column. -/
def exElectionGraph : Graph :=
  ⟨[0, 1], [(0, 1)],
    fun col v =>
      if col = "USS12D" then (if v = 0 then 3 else 1)
      else if col = "USS12R" then (if v = 0 then 1 else 3) else 0⟩

def exParties : List (String × String) := [("Dem", "USS12D"), ("Rep", "USS12R")]

theorem percents_sorted_and_bounded_witness :
    assocLookup "Dem" exParties = some "USS12D" ∧
    ((percents exElectionGraph (fun v => v) exParties "Dem").Sorted (· ≤ ·) ∧
      ∀ x ∈ percents exElectionGraph (fun v => v) exParties "Dem", 0 ≤ x ∧ x ≤ 1) :=
  ⟨rfl, percents_sorted_and_bounded exElectionGraph (fun v => v) exParties "Dem" "USS12D" rfl⟩

/-- Whether edge `e` has `v` as one of its endpoints. -/
def touches (v : Node) (e : Edge) : Bool := decide (v = e.1 ∨ v = e.2)

/-- Modelled from the spec: incremental maintenance of the cut-edge set (§3,
§4.2), missing from src: after a reassignment of node `v`, edges not
touching `v` keep their old classification, and only the edges adjacent to
`v` are re-evaluated against the new assignment. -/
def cutEdgesIncremental (g : Graph) (aNew : Assignment) (old : List Edge) (v : Node) :
    List Edge :=
  old.filter (fun e => !(touches v e)) ++
    g.edges.filter (fun e => touches v e && decide (aNew e.1 ≠ aNew e.2))

/-- Claim C3: for every graph with at least two districts and every
assignment differing from the current one at a single node, the
incrementally maintained cut-edge set (re-evaluating only edges adjacent to
the reassigned node) equals the cut-edge set computed from scratch on the
new assignment. -/
theorem cutEdgesIncremental_eq_scratch (g : Graph) (aOld aNew : Assignment) (v : Node)
    (hdiff : ∀ w, w ≠ v → aOld w = aNew w)
    (hdistricts : 2 ≤ (districtsOf g aNew).length) :
    (cutEdgesIncremental g aNew (cutEdges g aOld) v).toFinset =
      (cutEdges g aNew).toFinset := by
  apply Finset.ext
  intro e
  simp only [List.mem_toFinset]
  have huntouched : touches v e = false → (aOld e.1 = aNew e.1 ∧ aOld e.2 = aNew e.2) := by
    intro ht
    have ht' : ¬(v = e.1 ∨ v = e.2) := by
      simpa [touches] using ht
    push_neg at ht'
    exact ⟨hdiff e.1 (fun hh => ht'.1 hh.symm), hdiff e.2 (fun hh => ht'.2 hh.symm)⟩
  constructor
  · intro h
    rcases List.mem_append.mp h with hl | hr
    · rw [List.mem_filter] at hl
      obtain ⟨hcutold, hnt⟩ := hl
      rw [cutEdges, List.mem_filter] at hcutold
      obtain ⟨hedge, hcut⟩ := hcutold
      rw [decide_eq_true_eq] at hcut
      have hf : touches v e = false := by
        cases hb : touches v e with
        | false => rfl
        | true => rw [hb] at hnt; exact absurd hnt (by simp)
      obtain ⟨h1, h2⟩ := huntouched hf
      rw [cutEdges, List.mem_filter]
      refine ⟨hedge, ?_⟩
      rw [decide_eq_true_eq, ← h1, ← h2]
      exact hcut
    · rw [List.mem_filter] at hr
      obtain ⟨hedge, hcond⟩ := hr
      rw [Bool.and_eq_true, decide_eq_true_eq] at hcond
      rw [cutEdges, List.mem_filter]
      exact ⟨hedge, by rw [decide_eq_true_eq]; exact hcond.2⟩
  · intro h
    rw [cutEdges, List.mem_filter] at h
    obtain ⟨hedge, hcut⟩ := h
    rw [decide_eq_true_eq] at hcut
    rcases hb : touches v e with _ | _
    · apply List.mem_append.mpr
      left
      rw [List.mem_filter]
      obtain ⟨h1, h2⟩ := huntouched hb
      refine ⟨?_, by rw [hb]; rfl⟩
      rw [cutEdges, List.mem_filter]
      refine ⟨hedge, ?_⟩
      rw [decide_eq_true_eq, h1, h2]
      exact hcut
    · apply List.mem_append.mpr
      right
      rw [List.mem_filter]
      refine ⟨hedge, ?_⟩
      rw [Bool.and_eq_true, decide_eq_true_eq]
      exact ⟨hb, hcut⟩

/-- A three-node path graph used as a concrete instance. -/
def exPathGraph : Graph := ⟨[0, 1, 2], [(0, 1), (1, 2)], fun _ _ => 1⟩

/-- An assignment placing every node in district 0. -/
def exAllZero : Assignment := fun _ => 0

/-- `exAllZero` with node 0 reassigned to district 1. -/
def exFlipZero : Assignment := fun w => if w = 0 then 1 else 0

theorem cutEdgesIncremental_eq_scratch_witness :
    (∀ w : Node, w ≠ 0 → exAllZero w = exFlipZero w) ∧
    2 ≤ (districtsOf exPathGraph exFlipZero).length ∧
    (cutEdgesIncremental exPathGraph exFlipZero (cutEdges exPathGraph exAllZero) 0).toFinset =
      (cutEdges exPathGraph exFlipZero).toFinset :=
  ⟨fun w hw => by simp [exAllZero, exFlipZero, hw], by decide,
    cutEdgesIncremental_eq_scratch exPathGraph exAllZero exFlipZero 0
      (fun w hw => by simp [exAllZero, exFlipZero, hw]) (by decide)⟩

/-- Modelled from the spec: the Markov Chain Driver configuration (§3, §4.5),
missing from src (the script imports `gerrychain.MarkovChain`): a proposal
function (drawing on a pseudo-random value of type `ρ`, returning `none`
when its retry budget is exhausted), an ordered list of boolean constraints,
an acceptance policy, the initial state, and the step bound. -/
structure MarkovChain (α ρ : Type) where
  proposal : α → ρ → Option α
  constraints : List (α → Bool)
  accept : α → α → Bool
  initial_state : α
  total_steps : ℕ

namespace MarkovChain

variable {α ρ : Type}

/-- A state passes validation iff it passes every constraint (§4.4). -/
def isValid (mc : MarkovChain α ρ) (s : α) : Bool :=
  mc.constraints.all (fun c => c s)

/-- Modelled from the spec: one driver step (§4.5): propose; on proposal
exhaustion treat the step as rejected (current state repeats) and flag the
failure; otherwise validate against all constraints and apply the
acceptance policy.  Returns the emitted state and the exhaustion flag. -/
def chainStep (mc : MarkovChain α ρ) (s : α) (r : ρ) : α × Bool :=
  match mc.proposal s r with
  | none => (s, true)
  | some cand =>
    (if mc.isValid cand then (if mc.accept s cand then cand else s) else s, false)

/-- Modelled from the spec: the emitted sequence of states (§4.5), starting
at step index `i` with `n` steps remaining from state `s`; `stream` is the
pseudo-random stream of this iteration (a fresh stream per iteration gives
the restartable-iterator semantics of §4.5). -/
def runStatesFrom (mc : MarkovChain α ρ) (stream : ℕ → ρ) : ℕ → ℕ → α → List α
  | _, 0, _ => []
  | i, n + 1, s =>
    (mc.chainStep s (stream i)).1 ::
      mc.runStatesFrom stream (i + 1) n (mc.chainStep s (stream i)).1

/-- The full emitted sequence of one iteration of the chain. -/
def runStates (mc : MarkovChain α ρ) (stream : ℕ → ρ) : List α :=
  mc.runStatesFrom stream 0 mc.total_steps mc.initial_state

/-- Modelled from the spec: the observable count of proposal-exhaustion
events during a run (§7: retry exhaustion must be observable via a counter,
not silently swallowed). -/
def runFailuresFrom (mc : MarkovChain α ρ) (stream : ℕ → ρ) : ℕ → ℕ → α → ℕ
  | _, 0, _ => 0
  | i, n + 1, s =>
    (if (mc.chainStep s (stream i)).2 then 1 else 0) +
      mc.runFailuresFrom stream (i + 1) n (mc.chainStep s (stream i)).1

/-- The exhaustion counter of one full iteration of the chain. -/
def runFailures (mc : MarkovChain α ρ) (stream : ℕ → ρ) : ℕ :=
  mc.runFailuresFrom stream 0 mc.total_steps mc.initial_state

theorem runStatesFrom_length (mc : MarkovChain α ρ) (stream : ℕ → ρ) :
    ∀ (n i : ℕ) (s : α), (mc.runStatesFrom stream i n s).length = n := by
  intro n
  induction n with
  | zero => intro i s; rfl
  | succ n ih =>
    intro i s
    rw [runStatesFrom]
    simp only [List.length_cons]
    rw [ih]

end MarkovChain

/-- Claim C1: a chain whose acceptance policy is `AlwaysAccept` and whose
every constraint returns true on every state emits exactly `total_steps`
states per iteration, and every independent iteration (any two random
streams) emits a sequence of that same length. -/
theorem alwaysAccept_chain_emits_total_steps {α ρ : Type} (mc : MarkovChain α ρ)
    (haccept : ∀ s t : α, mc.accept s t = true)
    (hcon : ∀ c ∈ mc.constraints, ∀ s : α, c s = true) :
    (∀ stream : ℕ → ρ, (mc.runStates stream).length = mc.total_steps) ∧
    (∀ s₁ s₂ : ℕ → ρ, (mc.runStates s₁).length = (mc.runStates s₂).length) := by
  have hlen : ∀ stream : ℕ → ρ, (mc.runStates stream).length = mc.total_steps := by
    intro stream
    exact mc.runStatesFrom_length stream mc.total_steps 0 mc.initial_state
  exact ⟨hlen, fun s₁ s₂ => by rw [hlen s₁, hlen s₂]⟩

/-- A concrete chain on natural-number states: the proposal increments the
state, the single constraint and the acceptance policy always pass. -/
def exCountingChain : MarkovChain ℕ ℕ :=
  ⟨fun s _ => some (s + 1), [fun _ => true], fun _ _ => true, 0, 5⟩

theorem alwaysAccept_chain_emits_total_steps_witness :
    (∀ s t : ℕ, exCountingChain.accept s t = true) ∧
    (∀ c ∈ exCountingChain.constraints, ∀ s : ℕ, c s = true) ∧
    ((∀ stream : ℕ → ℕ, (exCountingChain.runStates stream).length =
        exCountingChain.total_steps) ∧
      (∀ s₁ s₂ : ℕ → ℕ, (exCountingChain.runStates s₁).length =
        (exCountingChain.runStates s₂).length)) :=
  ⟨fun _ _ => rfl,
    fun c hc s => by
      rcases List.mem_singleton.mp hc with rfl
      rfl,
    alwaysAccept_chain_emits_total_steps exCountingChain (fun _ _ => rfl)
      (fun c hc s => by
        rcases List.mem_singleton.mp hc with rfl
        rfl)⟩

/-- Claim C9: a chain step whose proposal generator fails after exhausting
its retry budget is treated as a rejected step: the driver emits the current
state again unchanged, the step is consumed (the run continues with the
remaining steps), and the failure is observable: the exhaustion counter of
the run is one more than that of the remaining steps. -/
theorem proposal_exhaustion_is_rejected_step {α ρ : Type} (mc : MarkovChain α ρ)
    (stream : ℕ → ρ) (i n : ℕ) (s : α)
    (hfail : mc.proposal s (stream i) = none) :
    mc.runStatesFrom stream i (n + 1) s = s :: mc.runStatesFrom stream (i + 1) n s ∧
    mc.runFailuresFrom stream i (n + 1) s = mc.runFailuresFrom stream (i + 1) n s + 1 := by
  constructor
  · rw [MarkovChain.runStatesFrom]
    simp [MarkovChain.chainStep, hfail]
  · rw [MarkovChain.runFailuresFrom]
    simp [MarkovChain.chainStep, hfail, Nat.add_comm]

/-- A concrete chain whose proposal generator always reports exhaustion. -/
def exStallingChain : MarkovChain ℕ ℕ :=
  ⟨fun _ _ => none, [], fun _ _ => true, 7, 4⟩

theorem proposal_exhaustion_is_rejected_step_witness :
    exStallingChain.proposal 7 0 = none ∧
    (exStallingChain.runStatesFrom (fun _ => 0) 0 1 7 =
        7 :: exStallingChain.runStatesFrom (fun _ => 0) 1 0 7 ∧
      exStallingChain.runFailuresFrom (fun _ => 0) 0 1 7 =
        exStallingChain.runFailuresFrom (fun _ => 0) 1 0 7 + 1) :=
  ⟨rfl, proposal_exhaustion_is_rejected_step exStallingChain (fun _ => 0) 0 0 7 rfl⟩

theorem chainStep_isValid {α ρ : Type} (mc : MarkovChain α ρ) (s : α) (r : ρ)
    (hs : mc.isValid s = true) : mc.isValid (mc.chainStep s r).1 = true := by
  rw [MarkovChain.chainStep]
  cases hp : mc.proposal s r with
  | none => simpa using hs
  | some cand =>
    simp only
    split_ifs with hv ha
    · exact hv
    · exact hs
    · exact hs

theorem runStatesFrom_isValid {α ρ : Type} (mc : MarkovChain α ρ) (stream : ℕ → ρ) :
    ∀ (n i : ℕ) (s : α), mc.isValid s = true →
      ∀ p ∈ mc.runStatesFrom stream i n s, mc.isValid p = true := by
  intro n
  induction n with
  | zero =>
    intro i s _ p hp
    simp [MarkovChain.runStatesFrom] at hp
  | succ n ih =>
    intro i s hs p hp
    rw [MarkovChain.runStatesFrom] at hp
    have hs' : mc.isValid (mc.chainStep s (stream i)).1 = true :=
      chainStep_isValid mc s (stream i) hs
    rcases List.mem_cons.mp hp with rfl | hmem
    · exact hs'
    · exact ih (i + 1) _ hs' p hmem

/-- The ideal district population as configured in the script (line 194):
the sum of the district population tallies divided by the number of
districts. -/
def idealPop (g : Graph) (a : Assignment) : ℚ :=
  (districtPops g a).sum / ((districtsOf g a).length : ℚ)

/-- The population constraint configured in the script (line 215):
`within_percent_of_ideal_population(initial_partition, 0.02)` — the ideal is
derived from the initial assignment `a0`, and a candidate passes iff every
district population is within 2% of it. -/
def popConstraint (g : Graph) (a0 : Assignment) : Assignment → Bool :=
  fun a => withinPercentOfIdeal (idealPop g a0) (2 / 100) (districtPops g a)

/-- The compactness constraint configured in the script (lines 210–213):
`UpperBound` on the number of cut edges, bounded by twice the number of cut
edges of the initial assignment `a0`. -/
def compactnessBound (g : Graph) (a0 : Assignment) : Assignment → Bool :=
  fun a => decide ((cutEdges g a).length ≤ 2 * (cutEdges g a0).length)

/-- The ReCom chain configured in the script (lines 218–227): constraints
`[pop_constraint, compactness_bound]`, `always_accept`, `total_steps=1000`,
parameterized by the proposal and the underlying data. -/
def scriptChain {ρ : Type} (g : Graph) (a0 : Assignment)
    (prop : Assignment → ρ → Option Assignment) : MarkovChain Assignment ρ :=
  ⟨prop, [popConstraint g a0, compactnessBound g a0], fun _ _ => true, a0, 1000⟩

/-- A two-node graph whose two singleton districts have unequal populations
10 and 1, so neither is within 2% of the ideal 5.5. -/
def exUnbalancedGraph : Graph :=
  ⟨[0, 1], [(0, 1)],
    fun col v => if col = "TOT_POP" then (if v = 0 then 10 else 1) else 0⟩

/-- Counterexample to claim C6 as stated: with an initial assignment whose
district populations violate the 2% population constraint and a proposal
whose retry budget is exhausted at the first step, the first emitted state
of the script's chain is the initial assignment itself, which fails
`pop_constraint`; so not every emitted state satisfies both constraints. -/
theorem scriptChain_first_emitted_violates :
    popConstraint exUnbalancedGraph (fun v => v) (fun v => v) = false ∧
    (fun v => v) ∈ (scriptChain exUnbalancedGraph (fun v => v)
      (fun _ _ => (none : Option Assignment))).runStates (fun _ => ()) := by
  constructor
  · simp only [popConstraint, withinPercentOfIdeal, districtPops, districtsOf, idealPop,
      tally, exUnbalancedGraph]
    norm_num
  · rw [MarkovChain.runStates]
    rw [show (scriptChain exUnbalancedGraph (fun v => v)
        (fun _ _ => (none : Option Assignment))).total_steps = 999 + 1 from rfl]
    rw [MarkovChain.runStatesFrom]
    exact List.mem_cons.mpr (Or.inl rfl)

/-- Claim C6 (amended): provided the initial partition satisfies the
population constraint (the compactness bound holds on the initial partition
by construction), every state emitted by the script's ReCom chain satisfies
both `pop_constraint` and `compactness_bound`, including the first emitted
one. -/
theorem scriptChain_emits_constrained {ρ : Type} (g : Graph) (a0 : Assignment)
    (prop : Assignment → ρ → Option Assignment) (stream : ℕ → ρ)
    (hinit : popConstraint g a0 a0 = true) :
    ∀ p ∈ (scriptChain g a0 prop).runStates stream,
      popConstraint g a0 p = true ∧ compactnessBound g a0 p = true := by
  have hcb : compactnessBound g a0 a0 = true := by
    rw [compactnessBound, decide_eq_true_eq]
    omega
  have hvalid : (scriptChain g a0 prop).isValid a0 = true := by
    rw [MarkovChain.isValid]
    simp [scriptChain, hinit, hcb]
  intro p hp
  have hall := runStatesFrom_isValid (scriptChain g a0 prop) stream
    (scriptChain g a0 prop).total_steps 0 a0 hvalid p hp
  rw [MarkovChain.isValid] at hall
  simpa [scriptChain] using hall

/-- A two-node graph whose two singleton districts both have population 10,
exactly the ideal. -/
def exBalancedGraph : Graph :=
  ⟨[0, 1], [(0, 1)], fun col _ => if col = "TOT_POP" then 10 else 0⟩

theorem scriptChain_emits_constrained_witness :
    popConstraint exBalancedGraph (fun v => v) (fun v => v) = true ∧
    ∀ p ∈ (scriptChain exBalancedGraph (fun v => v)
        (fun _ _ => (none : Option Assignment))).runStates (fun _ => ()),
      popConstraint exBalancedGraph (fun v => v) p = true ∧
      compactnessBound exBalancedGraph (fun v => v) p = true := by
  have hinit : popConstraint exBalancedGraph (fun v => v) (fun v => v) = true := by
    simp only [popConstraint, withinPercentOfIdeal, districtPops, districtsOf, idealPop,
      tally, exBalancedGraph]
    norm_num
  exact ⟨hinit,
    scriptChain_emits_constrained exBalancedGraph (fun v => v)
      (fun _ _ => (none : Option Assignment)) (fun _ => ()) hinit⟩

/-- Modelled from the spec: the random-flip proposal's elementary move
(§4.3), missing from src (the script imports
`gerrychain.proposals.propose_random_flip`): reassign node `u` to district
`d` (the district of the other endpoint of a chosen cut edge), leaving every
other node unchanged. -/
def flipAssignment (a : Assignment) (u : Node) (d : District) : Assignment :=
  fun x => if x = u then d else a x

/-- The number of distinct district IDs appearing in the assignment. -/
def districtCount (g : Graph) (a : Assignment) : ℕ :=
  ((g.nodes.map a).dedup).length

/-- An id-like assignment on the path graph placing nodes 0 and 1 in
district 0 and node 2 in district 1. -/
def exTwoOneAssign : Assignment := fun x => if x ≤ 1 then 0 else 1

/-- A two-node graph with one edge, each node its own singleton district
under the identity assignment. -/
def exTwoSingletonsGraph : Graph := ⟨[0, 1], [(0, 1)], fun _ _ => 1⟩

/-- Counterexample to claim C10 as stated: flipping an endpoint of a cut
edge whose district is a singleton empties that district, so the candidate
assignment has fewer distinct districts than the current partition.  Here
`(0,1)` is a cut edge of the identity assignment on two singleton districts,
and flipping node 0 to node 1's district leaves a single district. -/
theorem flip_district_count_not_conserved :
    (0, 1) ∈ cutEdges exTwoSingletonsGraph (fun v => v) ∧
    districtCount exTwoSingletonsGraph
        (flipAssignment (fun v => v) 0 ((fun v : Node => v) 1)) ≠
      districtCount exTwoSingletonsGraph (fun v => v) := by
  constructor
  · decide
  · decide

/-- Claim C10 (amended): for every candidate produced by the random-flip
proposal (reassigning endpoint `u` of a cut edge `(u,vtx)` to `vtx`'s
district), the number of distinct district IDs is conserved, provided the
flipped node is not the sole member of its district. -/
theorem flip_conserves_district_count (g : Graph) (a : Assignment) (u vtx : Node)
    (hcut : (u, vtx) ∈ cutEdges g a ∨ (vtx, u) ∈ cutEdges g a)
    (hu : u ∈ g.nodes) (hv : vtx ∈ g.nodes)
    (hshare : ∃ w ∈ g.nodes, w ≠ u ∧ a w = a u) :
    districtCount g (flipAssignment a u (a vtx)) = districtCount g a := by
  unfold districtCount
  rw [← List.card_toFinset, ← List.card_toFinset]
  congr 1
  apply Finset.ext
  intro d
  simp only [List.mem_toFinset, List.mem_map]
  constructor
  · rintro ⟨x, hx, rfl⟩
    by_cases hxu : x = u
    · subst hxu
      exact ⟨vtx, hv, by simp [flipAssignment]⟩
    · exact ⟨x, hx, by simp [flipAssignment, hxu]⟩
  · rintro ⟨x, hx, rfl⟩
    by_cases hxu : x = u
    · subst hxu
      obtain ⟨w, hw, hwu, hwa⟩ := hshare
      exact ⟨w, hw, by simp [flipAssignment, hwu, hwa]⟩
    · exact ⟨x, hx, by simp [flipAssignment, hxu]⟩

theorem flip_conserves_district_count_witness :
    ((1, 2) ∈ cutEdges exPathGraph exTwoOneAssign ∨
      (2, 1) ∈ cutEdges exPathGraph exTwoOneAssign) ∧
    (1 ∈ exPathGraph.nodes ∧ 2 ∈ exPathGraph.nodes) ∧
    (∃ w ∈ exPathGraph.nodes, w ≠ 1 ∧ exTwoOneAssign w = exTwoOneAssign 1) ∧
    districtCount exPathGraph (flipAssignment exTwoOneAssign 1 (exTwoOneAssign 2)) =
      districtCount exPathGraph exTwoOneAssign :=
  ⟨by decide, ⟨by decide, by decide⟩, by decide,
    flip_conserves_district_count exPathGraph exTwoOneAssign 1 2 (by decide)
      (by decide) (by decide) (by decide)⟩

/-- Modelled from the spec: the error taxonomy entry for assignments
inconsistent with the graph (§7), missing from src. -/
inductive PartitionError where
  | invalidAssignment
  deriving DecidableEq

/-- Whether node `v` is assigned by the raw assignment to a district of the
defined district set `ds`. -/
def nodeAssigned (raw : List (Node × District)) (ds : List District) (v : Node) : Bool :=
  match assocLookup v raw with
  | some d => decide (d ∈ ds)
  | none => false

/-- Modelled from the spec: Partition construction validation (§4.2, §7),
missing from src (the script imports `gerrychain.Partition`): constructing a
Partition from a raw node→district list fails with `InvalidAssignmentError`
when some graph node is omitted or mapped to a district outside the defined
district set `ds`, and otherwise succeeds with the total assignment. -/
def constructPartition (g : Graph) (raw : List (Node × District)) (ds : List District) :
    Except PartitionError Assignment :=
  if g.nodes.all (nodeAssigned raw ds)
  then Except.ok (fun v => (assocLookup v raw).getD 0)
  else Except.error PartitionError.invalidAssignment

/-- Claim C8: for every graph and raw assignment that omits some node or
maps some node to a district outside the defined district set, Partition
construction fails with `InvalidAssignmentError`; and it succeeds exactly
when every node of the graph has exactly one defined district. -/
theorem constructPartition_error_iff (g : Graph) (raw : List (Node × District))
    (ds : List District) :
    (constructPartition g raw ds = Except.error PartitionError.invalidAssignment ↔
      ∃ v ∈ g.nodes, assocLookup v raw = none ∨
        ∃ d, assocLookup v raw = some d ∧ d ∉ ds) ∧
    ((∃ a, constructPartition g raw ds = Except.ok a) ↔
      ∀ v ∈ g.nodes, ∃ d, assocLookup v raw = some d ∧ d ∈ ds) := by
  have hchar : ∀ v, nodeAssigned raw ds v = true ↔
      ∃ d, assocLookup v raw = some d ∧ d ∈ ds := by
    intro v
    cases h : assocLookup v raw with
    | none => simp [nodeAssigned, h]
    | some d => simp [nodeAssigned, h]
  have hneg : ∀ v, nodeAssigned raw ds v = false ↔
      (assocLookup v raw = none ∨ ∃ d, assocLookup v raw = some d ∧ d ∉ ds) := by
    intro v
    cases h : assocLookup v raw with
    | none => simp [nodeAssigned, h]
    | some d => simp [nodeAssigned, h]
  unfold constructPartition
  by_cases hall : g.nodes.all (nodeAssigned raw ds) = true
  · rw [if_pos hall]
    rw [List.all_eq_true] at hall
    constructor
    · constructor
      · intro h
        cases h
      · rintro ⟨v, hvmem, hbad⟩
        have hv := (hchar v).mp (hall v hvmem)
        rcases hbad with hnone | ⟨d, hd, hnd⟩
        · rcases hv with ⟨d', hd', _⟩
          rw [hnone] at hd'
          cases hd'
        · rcases hv with ⟨d', hd', hmem⟩
          rw [hd] at hd'
          cases hd'
          exact absurd hmem hnd
    · constructor
      · intro _ v hv
        exact (hchar v).mp (hall v hv)
      · intro _
        exact ⟨_, rfl⟩
  · rw [if_neg hall]
    rw [List.all_eq_true] at hall
    push_neg at hall
    obtain ⟨v, hv, hna⟩ := hall
    have hfa : nodeAssigned raw ds v = false := by
      cases hb : nodeAssigned raw ds v with
      | false => rfl
      | true => exact absurd hb hna
    constructor
    · constructor
      · intro _
        exact ⟨v, hv, (hneg v).mp hfa⟩
      · intro _
        rfl
    · constructor
      · rintro ⟨a, ha⟩
        cases ha
      · intro hgood
        have hvt : nodeAssigned raw ds v = true := (hchar v).mpr (hgood v hv)
        rw [hfa] at hvt
        cases hvt

/-- Modelled from the spec: the explicit enum of updater kinds (§9): Tally
over an attribute column, the cut-edge set, and an election result over a
party→column dictionary. -/
inductive UpdaterKind where
  | tallyKind (col : String)
  | cutEdgesKind
  | electionKind (parties : List (String × String))

/-- The cached aggregate value of an updater (§3): a district→scalar
mapping, the cut-edge list, or per-party per-district vote totals. -/
inductive UpdaterValue where
  | tallyVal (t : District → ℤ)
  | cutEdgesVal (es : List Edge)
  | electionVal (ev : String → District → ℤ)

/-- Modelled from the spec: from-scratch computation of an updater's value
at Partition construction (§4.2). -/
def computeUpdater (g : Graph) (a : Assignment) : UpdaterKind → UpdaterValue
  | UpdaterKind.tallyKind col => UpdaterValue.tallyVal (tally g col a)
  | UpdaterKind.cutEdgesKind => UpdaterValue.cutEdgesVal (cutEdges g a)
  | UpdaterKind.electionKind parties =>
      UpdaterValue.electionVal
        (fun party => tally g ((assocLookup party parties).getD "") a)

/-- Move node `v`'s contribution in attribute column `col` from its old
district's total to its new district's total. -/
def tallyMove (g : Graph) (col : String) (aOld aNew : Assignment) (t : District → ℤ)
    (v : Node) : District → ℤ :=
  fun d =>
    t d - (if d = aOld v then (g.attr col v : ℤ) else 0) +
      (if d = aNew v then (g.attr col v : ℤ) else 0)

/-- Modelled from the spec: incremental recomputation of an updater after an
assignment change (§4.2), driven by the list of changed nodes: a Tally
moves each changed node's contribution between districts, the cut-edge set
re-evaluates only edges touching changed nodes, and an election result
moves each changed node's votes per party; a value whose shape does not
match its kind cannot be updated incrementally and is recomputed fully. -/
def updateUpdater (g : Graph) (aOld aNew : Assignment) (changed : List Node) :
    UpdaterKind → UpdaterValue → UpdaterValue
  | UpdaterKind.tallyKind col, UpdaterValue.tallyVal t =>
      UpdaterValue.tallyVal (changed.foldl (tallyMove g col aOld aNew) t)
  | UpdaterKind.cutEdgesKind, UpdaterValue.cutEdgesVal es =>
      UpdaterValue.cutEdgesVal
        (es.filter (fun e => changed.all (fun v => !(touches v e))) ++
          g.edges.filter (fun e =>
            changed.any (fun v => touches v e) && decide (aNew e.1 ≠ aNew e.2)))
  | UpdaterKind.electionKind parties, UpdaterValue.electionVal ev =>
      UpdaterValue.electionVal (fun party =>
        changed.foldl (tallyMove g ((assocLookup party parties).getD "") aOld aNew)
          (ev party))
  | k, _ => computeUpdater g aNew k

/-- Modelled from the spec: a Partition (§3): the graph, the assignment, and
the cache of named updater values. -/
structure Partition where
  graph : Graph
  assignment : Assignment
  cache : List (String × UpdaterKind × UpdaterValue)

/-- Modelled from the spec: `construct` (§4.2), missing from src (the script
imports `gerrychain.Partition`): computes every updater's value from
scratch. -/
def Partition.construct (g : Graph) (a : Assignment)
    (updaters : List (String × UpdaterKind)) : Partition :=
  ⟨g, a, updaters.map (fun nk => (nk.1, nk.2, computeUpdater g a nk.2))⟩

/-- Modelled from the spec: `withAssignment` (§4.2), missing from src:
computes the difference of the node→district mappings between the old and
the new assignment, then updates every updater incrementally from the
changed nodes. -/
def Partition.withAssignment (p : Partition) (aNew : Assignment) : Partition :=
  ⟨p.graph, aNew,
    p.cache.map (fun c =>
      (c.1, c.2.1,
        updateUpdater p.graph p.assignment aNew
          (p.graph.nodes.filter (fun v => decide (p.assignment v ≠ aNew v)))
          c.2.1 c.2.2))⟩

/-- The named updater values of a partition. -/
def Partition.values (p : Partition) : List (String × UpdaterValue) :=
  p.cache.map (fun c => (c.1, c.2.2))

theorem updateUpdater_no_change (g : Graph) (a : Assignment) (k : UpdaterKind) :
    updateUpdater g a a [] k (computeUpdater g a k) = computeUpdater g a k := by
  cases k with
  | tallyKind col => simp [updateUpdater, computeUpdater]
  | cutEdgesKind => simp [updateUpdater, computeUpdater]
  | electionKind parties => simp [updateUpdater, computeUpdater]

/-- Claim C4: for every graph, assignment and set of named updaters,
constructing a Partition and then calling `withAssignment` with the same
assignment yields a Partition whose every updater value is identical to the
one obtained by constructing directly from that assignment. -/
theorem withAssignment_same_idempotent (g : Graph) (a : Assignment)
    (updaters : List (String × UpdaterKind)) :
    ((Partition.construct g a updaters).withAssignment a).values =
      (Partition.construct g a updaters).values := by
  unfold Partition.withAssignment Partition.construct Partition.values
  simp only [List.map_map]
  apply List.map_congr_left
  intro nk _
  simp only [Function.comp_apply]
  have hch : g.nodes.filter (fun v => decide (a v ≠ a v)) = [] := by simp
  rw [hch, updateUpdater_no_change]

/-- A walk from `x` to `y` along edges of `E` (usable in either direction)
whose vertices all lie in the vertex list `S` — connectivity inside the
subgraph induced by `S`. -/
inductive WalkIn (E : List Edge) (S : List Node) : Node → Node → Prop where
  | refl (a : Node) (ha : a ∈ S) : WalkIn E S a a
  | step {a b c : Node} (w : WalkIn E S a b) (hbc : (b, c) ∈ E ∨ (c, b) ∈ E)
      (hc : c ∈ S) : WalkIn E S a c

/-- The vertex list `S` induces a connected subgraph of the edge list `E`:
any two of its members are joined by a walk staying inside `S`. -/
def ConnectedIn (E : List Edge) (S : List Node) : Prop :=
  ∀ x ∈ S, ∀ y ∈ S, WalkIn E S x y

theorem WalkIn.mem_right {E : List Edge} {S : List Node} {x y : Node}
    (w : WalkIn E S x y) : y ∈ S := by
  induction w with
  | refl ha => exact ha
  | step _ _ hc _ => exact hc

theorem WalkIn.monoS {E : List Edge} {S T : List Node} {x y : Node}
    (hST : S ⊆ T) (w : WalkIn E S x y) : WalkIn E T x y := by
  induction w with
  | refl ha => exact WalkIn.refl _ (hST ha)
  | step _ hbc hc ih => exact ih.step hbc (hST hc)

theorem WalkIn.monoE {E F : List Edge} {S : List Node} {x y : Node}
    (hEF : E ⊆ F) (w : WalkIn E S x y) : WalkIn F S x y := by
  induction w with
  | refl ha => exact WalkIn.refl _ ha
  | step _ hbc hc ih =>
    exact ih.step (hbc.imp (fun h => hEF h) (fun h => hEF h)) hc

theorem WalkIn.trans {E : List Edge} {S : List Node} {x y z : Node}
    (w₁ : WalkIn E S x y) (w₂ : WalkIn E S y z) : WalkIn E S x z := by
  induction w₂ with
  | refl _ => exact w₁
  | step _ hbc hc ih => exact ih.step hbc hc

theorem WalkIn.symm {E : List Edge} {S : List Node} {x y : Node}
    (w : WalkIn E S x y) : WalkIn E S y x := by
  induction w with
  | refl ha => exact WalkIn.refl _ ha
  | step w' hbc hc ih =>
    exact ((WalkIn.refl _ hc).step hbc.symm w'.mem_right).trans ih

theorem ConnectedIn.monoEdges {E F : List Edge} {S : List Node} (hEF : E ⊆ F)
    (h : ConnectedIn E S) : ConnectedIn F S :=
  fun x hx y hy => (h x hx y hy).monoE hEF

/-- One breadth-first expansion step: add every neighbour (along `E`) of the
current vertex list `s`. -/
def expand (E : List Edge) (s : List Node) : List Node :=
  (s ++ E.filterMap (fun e => if e.1 ∈ s then some e.2 else none) ++
    E.filterMap (fun e => if e.2 ∈ s then some e.1 else none)).dedup

theorem subset_expand (E : List Edge) (s : List Node) : s ⊆ expand E s := by
  intro x hx
  unfold expand
  rw [List.mem_dedup]
  exact List.mem_append.mpr (Or.inl (List.mem_append.mpr (Or.inl hx)))

theorem walkIn_expand (E : List Edge) (s : List Node) (a : Node)
    (h : ∀ x ∈ s, WalkIn E s a x) : ∀ x ∈ expand E s, WalkIn E (expand E s) a x := by
  intro x hx
  unfold expand at hx
  rw [List.mem_dedup] at hx
  rcases List.mem_append.mp hx with h12 | h3
  · rcases List.mem_append.mp h12 with h1 | h2
    · exact (h x h1).monoS (subset_expand E s)
    · rcases List.mem_filterMap.mp h2 with ⟨e, heE, hfe⟩
      by_cases h1s : e.1 ∈ s
      · rw [if_pos h1s] at hfe
        have hx2 : x = e.2 := (Option.some.inj hfe).symm
        subst hx2
        have hmemx : e.2 ∈ expand E s := by
          unfold expand
          rw [List.mem_dedup]
          exact List.mem_append.mpr (Or.inl (List.mem_append.mpr (Or.inr
            (List.mem_filterMap.mpr ⟨e, heE, by rw [if_pos h1s]⟩))))
        have hedge : (e.1, e.2) ∈ E := by simpa using heE
        exact ((h e.1 h1s).monoS (subset_expand E s)).step (Or.inl hedge) hmemx
      · rw [if_neg h1s] at hfe
        cases hfe
  · rcases List.mem_filterMap.mp h3 with ⟨e, heE, hfe⟩
    by_cases h2s : e.2 ∈ s
    · rw [if_pos h2s] at hfe
      have hx1 : x = e.1 := (Option.some.inj hfe).symm
      subst hx1
      have hmemx : e.1 ∈ expand E s := by
        unfold expand
        rw [List.mem_dedup]
        exact List.mem_append.mpr (Or.inr
          (List.mem_filterMap.mpr ⟨e, heE, by rw [if_pos h2s]⟩))
      have hedge : (e.1, e.2) ∈ E := by simpa using heE
      exact ((h e.2 h2s).monoS (subset_expand E s)).step (Or.inr hedge) hmemx
    · rw [if_neg h2s] at hfe
      cases hfe

/-- Iterated expansion with explicit fuel. -/
def reachAux (E : List Edge) : ℕ → List Node → List Node
  | 0, s => s
  | n + 1, s => reachAux E n (expand E s)

theorem reachAux_walk (E : List Edge) (a : Node) :
    ∀ (n : ℕ) (s : List Node), (∀ x ∈ s, WalkIn E s a x) →
      ∀ x ∈ reachAux E n s, WalkIn E (reachAux E n s) a x := by
  intro n
  induction n with
  | zero =>
    intro s h
    exact h
  | succ n ih =>
    intro s h
    rw [reachAux]
    exact ih (expand E s) (walkIn_expand E s a h)

/-- The vertices reachable from `a` along `E` within `fuel` expansion
steps. -/
def component (E : List Edge) (a : Node) (fuel : ℕ) : List Node :=
  reachAux E fuel [a]

theorem component_connected (E : List Edge) (a : Node) (fuel : ℕ) :
    ConnectedIn E (component E a fuel) := by
  intro x hx y hy
  have hbase : ∀ z ∈ [a], WalkIn E [a] a z := by
    intro z hz
    rcases List.mem_singleton.mp hz with rfl
    exact WalkIn.refl z (List.mem_singleton.mpr rfl)
  have wx := reachAux_walk E a fuel [a] hbase x hx
  have wy := reachAux_walk E a fuel [a] hbase y hy
  exact wx.symm.trans wy

/-- Removal of the chosen spanning-tree edge. -/
def removeEdge (T : List Edge) (e : Edge) : List Edge :=
  T.filter (fun f => decide (f ≠ e))

/-- Modelled from the spec: the tree split of the recombination proposal
(§4.3), missing from src (the script imports
`gerrychain.tree_proposals.recom`): after removing the chosen edge `e` from
the spanning tree `T`, the two new districts are the components of `e`'s
two endpoints. -/
def recomSplit (g : Graph) (T : List Edge) (e : Edge) : List Node × List Node :=
  (component (removeEdge T e) e.1 g.nodes.length,
    component (removeEdge T e) e.2 g.nodes.length)

/-- Total population (attribute column `col`) of a list of nodes. -/
def listPop (g : Graph) (col : String) (s : List Node) : ℤ :=
  (s.map (fun v => (g.attr col v : ℤ))).sum

/-- Whether a part's population is within `eps` fractional deviation of the
population target (§4.3). -/
def balancedPop (popTarget eps : ℚ) (p : ℤ) : Bool :=
  decide (popTarget * (1 - eps) ≤ (p : ℚ) ∧ (p : ℚ) ≤ popTarget * (1 + eps))

/-- Modelled from the spec: the recombination proposal's split step (§4.3),
missing from src: given a spanning tree `T` of the merged region and a
chosen tree edge `e`, succeed with the two components of `T − e` when both
are population-balanced, and fail otherwise. -/
def recomProposal (g : Graph) (T : List Edge) (e : Edge) (popCol : String)
    (popTarget eps : ℚ) : Option (List Node × List Node) :=
  if balancedPop popTarget eps (listPop g popCol (recomSplit g T e).1) &&
      balancedPop popTarget eps (listPop g popCol (recomSplit g T e).2)
  then some (recomSplit g T e)
  else none

/-- Claim C5: for every candidate successfully returned by the
recombination proposal from a spanning tree of (a sub-region of) the graph,
each of the two districts produced by the tree split induces a connected
subgraph of the underlying graph. -/
theorem recom_districts_connected (g : Graph) (T : List Edge) (e : Edge)
    (popCol : String) (popTarget eps : ℚ) (p₁ p₂ : List Node)
    (hT : T ⊆ g.edges)
    (hsome : recomProposal g T e popCol popTarget eps = some (p₁, p₂)) :
    ConnectedIn g.edges p₁ ∧ ConnectedIn g.edges p₂ := by
  have hsub : removeEdge T e ⊆ g.edges := fun f hf => hT (List.mem_filter.mp hf).1
  unfold recomProposal at hsome
  split at hsome
  · have hps := Option.some.inj hsome
    have h1 : p₁ = (recomSplit g T e).1 := by rw [hps]
    have h2 : p₂ = (recomSplit g T e).2 := by rw [hps]
    rw [h1, h2]
    exact ⟨(component_connected _ _ _).monoEdges hsub,
      (component_connected _ _ _).monoEdges hsub⟩
  · cases hsome

/-- A four-node path graph with population 10 per node, the scenario of
spec §8. -/
def exFourPathGraph : Graph :=
  ⟨[0, 1, 2, 3], [(0, 1), (1, 2), (2, 3)],
    fun col _ => if col = "TOT_POP" then 10 else 0⟩

theorem recom_districts_connected_witness :
    ([(0, 1), (1, 2), (2, 3)] ⊆ exFourPathGraph.edges ∧
      recomProposal exFourPathGraph [(0, 1), (1, 2), (2, 3)] (1, 2) "TOT_POP"
        20 (1 / 10) = some ([1, 0], [3, 2])) ∧
    (ConnectedIn exFourPathGraph.edges [1, 0] ∧
      ConnectedIn exFourPathGraph.edges [3, 2]) := by
  have hT : [(0, 1), (1, 2), (2, 3)] ⊆ exFourPathGraph.edges := fun f hf => hf
  have hsplit : recomSplit exFourPathGraph [(0, 1), (1, 2), (2, 3)] (1, 2) =
      ([1, 0], [3, 2]) := by decide
  have hpop1 : listPop exFourPathGraph "TOT_POP" [1, 0] = 20 := by decide
  have hpop2 : listPop exFourPathGraph "TOT_POP" [3, 2] = 20 := by decide
  have hbal : balancedPop 20 (1 / 10) 20 = true := by
    unfold balancedPop
    rw [decide_eq_true_eq]
    norm_num
  have hsome : recomProposal exFourPathGraph [(0, 1), (1, 2), (2, 3)] (1, 2)
      "TOT_POP" 20 (1 / 10) = some ([1, 0], [3, 2]) := by
    unfold recomProposal
    rw [hsplit]
    simp only [hpop1, hpop2, hbal, Bool.and_self, if_pos]
  exact ⟨⟨hT, hsome⟩,
    recom_districts_connected exFourPathGraph [(0, 1), (1, 2), (2, 3)] (1, 2)
      "TOT_POP" 20 (1 / 10) [1, 0] [3, 2] hT hsome⟩

end GerryIntro
